import Mathlib

/-!
Verification of the parsing/sequencing pipeline of `create.py` (pandora-notes).

The document source is modelled as a `List Char`.  Every definition below is a
direct translation of a piece of `create.py`; external processes (the LaTeX
typesetter, the manim renderer) and the file system are modelled by an
`Oracle` telling, per element index and input, whether the external call
succeeds and which files exist.

Recursions that skip over a matched region are written with an explicit fuel
argument initialised to `length + 1`; every recursive call consumes at least
one character of the remaining input, so the fuel never runs out and the
functions compute by kernel reduction on concrete inputs.
-/

namespace Pandora

/-- ASCII whitespace, the characters Python's `str.strip` and the regex class
`\s` recognise on the inputs in scope. -/
def isSpaceC (c : Char) : Bool :=
  c == ' ' || c == '\t' || c == '\n' || c == '\r' || c == '\x0b' || c == '\x0c'

/-- Python `str.strip()`: drop leading and trailing whitespace. -/
def pstrip (l : List Char) : List Char :=
  (((l.dropWhile isSpaceC).reverse).dropWhile isSpaceC).reverse

/-- The typed elements produced by `parse_latex` (create.py lines 103-165):
dicts with a `type` key of `latex`, `manim`, `image`/`video` (here `media`
with the kind stored as a field, as in the Python dict) or `pagebreak`. -/
inductive Element where
  | latex (text : List Char)
  | manim (code : List Char)
  | media (kind : List Char) (file : List Char)
      (width : Option (List Char)) (height : Option (List Char))
      (scale : Option (List Char))
  | pagebreak
deriving DecidableEq, Repr

/-- Elements of the first pass (the loop over `\begin{manim}` environments,
lines 109-118): only `latex` text chunks and `manim` code blocks occur. -/
inductive RawEl where
  | latex (text : List Char)
  | manim (code : List Char)
deriving DecidableEq, Repr

def beginManimLit : List Char := "\\begin\x7bmanim\x7d".data
def endManimLit : List Char := "\\end\x7bmanim\x7d".data
def manimInlineLit : List Char := "\\manim\x7b".data
def newpageLit : List Char := "\\newpage".data
def breakpageLit : List Char := "\\breakpage".data
def twocolumnCmd : List Char := "\\twocolumn".data
def twocolKey : List Char := "twocolumn".data
def docOptLit : List Char := "\\document[".data

/-- Leftmost occurrence of the literal pattern `p` in `l`:
`splitFirst p l = some (pre, post)` splits `l` as `pre ++ p ++ post` at the
first occurrence; `none` if `p` does not occur.  This is how `re.search`,
`re.finditer` and `str.index` locate a literal pattern. -/
def splitFirst (p : List Char) : List Char → Option (List Char × List Char)
  | [] => if p = [] then some ([], []) else none
  | c :: tl =>
    if p.isPrefixOf (c :: tl) then some ([], (c :: tl).drop p.length)
    else (splitFirst p tl).map (fun r => (c :: r.1, r.2))

/-- Whether the literal `p` occurs in `l` as a contiguous substring. -/
def containsSub (p l : List Char) : Bool := (splitFirst p l).isSome

/-- Leftmost occurrence of either literal `p` or literal `q` (at equal
positions `p` wins, mirroring the alternation order of
`re.split(r"(\newpage|\breakpage)", t)`); returns (before, separator, after). -/
def splitFirst2 (p q : List Char) : List Char → Option (List Char × List Char × List Char)
  | [] => none
  | c :: tl =>
    if p.isPrefixOf (c :: tl) then some ([], p, (c :: tl).drop p.length)
    else if q.isPrefixOf (c :: tl) then some ([], q, (c :: tl).drop q.length)
    else (splitFirst2 p q tl).map (fun r => (c :: r.1, r.2))

/-- First pass of `parse_latex` (lines 106-118): scan for
`\begin{manim}...\end{manim}` regions (lazy body, so each begin pairs with
the first end after it); text between matches becomes a stripped `latex`
chunk when non-empty, the body a stripped `manim` chunk. If a begin has no
matching end, the regex of line 110 yields no further match and the whole
remaining text is the final chunk. -/
def firstPassGo : Nat → List Char → List RawEl
  | 0, l =>
    let a := pstrip l
    if a = [] then [] else [RawEl.latex a]
  | fuel + 1, l =>
    match splitFirst beginManimLit l with
    | none =>
      let a := pstrip l
      if a = [] then [] else [RawEl.latex a]
    | some (pre, rest) =>
      match splitFirst endManimLit rest with
      | none =>
        let a := pstrip l
        if a = [] then [] else [RawEl.latex a]
      | some (code, rest2) =>
        (let b := pstrip pre
         if b = [] then [] else [RawEl.latex b])
          ++ RawEl.manim (pstrip code) :: firstPassGo fuel rest2

def firstPass (l : List Char) : List RawEl := firstPassGo (l.length + 1) l

/-- One inline `\manim{...}` match (regex `\\manim\{([^}]*)\}` of line 132):
scanning left to right, the first position where `\manim{` is followed by a
run of non-`}` characters and a closing `}`.  Returns (before, body, after). -/
def splitManim : List Char → Option (List Char × List Char × List Char)
  | [] => none
  | c :: tl =>
    if manimInlineLit.isPrefixOf (c :: tl) then
      let rest := (c :: tl).drop manimInlineLit.length
      let code := rest.takeWhile (fun x => !(x == '\x7d'))
      match rest.drop code.length with
      | '\x7d' :: tl2 => some ([], code, tl2)
      | _ => (splitManim tl).map (fun r => (c :: r.1, r.2))
    else (splitManim tl).map (fun r => (c :: r.1, r.2))

/-- `re.sub(r"\\manim\{([^}]*)\}", repl_inline, t)` (lines 129-132): delete
every inline manim match from the text and collect the bodies in occurrence
order (the Python replacement callback appends each body to `expanded`). -/
def manimSubGo : Nat → List Char → List Char × List (List Char)
  | 0, l => (l, [])
  | fuel + 1, l =>
    match splitManim l with
    | none => (l, [])
    | some (pre, code, rest) =>
      let r := manimSubGo fuel rest
      (pre ++ r.1, code :: r.2)

def manimSub (l : List Char) : List Char × List (List Char) :=
  manimSubGo (l.length + 1) l

/-- `re.split(r"(\\newpage|\\breakpage)", t)` (line 135): split on page-break
directives, keeping the separators (capture group) and empty pieces. -/
def pbSplitGo : Nat → List Char → List (List Char)
  | 0, l => [l]
  | fuel + 1, l =>
    match splitFirst2 newpageLit breakpageLit l with
    | none => [l]
    | some (pre, sep, rest) => pre :: sep :: pbSplitGo fuel rest

def pbSplit (l : List Char) : List (List Char) := pbSplitGo (l.length + 1) l

/-- The `\{([^}]+)\}` suffix of the media regex: a `{`, a non-empty run of
non-`}` characters, a closing `}`.  Returns the body and consumed length. -/
def braceArg (u : List Char) : Option (List Char × Nat) :=
  match u with
  | '\x7b' :: v =>
    let run := v.takeWhile (fun x => !(x == '\x7d'))
    if run = [] then none
    else if (v.drop run.length).head? = some '\x7d' then some (run, run.length + 2)
    else none
  | _ => none

/-- The `\]?\{([^}]+)\}` suffix: an optional `]` (if present it must be
consumed, since `\{` cannot match `]`), then the brace argument. -/
def afterOpt (u : List Char) : Option (List Char × Nat) :=
  match u with
  | ']' :: v => (braceArg v).map (fun r => (r.1, r.2 + 1))
  | _ => braceArg u

/-- Matching `\[?([^\]]*)\]?\{([^}]+)\}` (the part of the media regex of line
160 after the literal `\image`/`\video`) anchored at the start of `s`,
with Python's backtracking order: the optional `[` is consumed when present
(the alternative where it is left for the `[^\]]*` group succeeds at exactly
the same positions, so the first try decides); the greedy group `[^\]]*`
stops either at the first `]`/end of its run (longest try) or at a `{`
inside the run, longer tries first.  Returns (options, path, consumed). -/
def tailMatch (s : List Char) : Option (List Char × List Char × Nat) :=
  let brk := s.head? = some '['
  let s1 := if brk then s.drop 1 else s
  let r := s1.takeWhile (fun x => !(x == ']'))
  let cands := ((List.range (r.length + 1)).reverse).filter
    (fun k => k = r.length ∨ r.get? k = some '\x7b')
  cands.findSome? (fun k =>
    (afterOpt (s1.drop k)).map
      (fun pn => (r.take k, pn.1, (if brk then 1 else 0) + k + pn.2)))

/-- `re.finditer(rf"\\{typ}\[?([^\]]*)\]?\{{([^}}]+)\}}", part)` (line 160):
all non-overlapping matches, left to right, of the media directive whose
literal head is `pat` (`\image` or `\video`).  Each entry is
(full matched text, options group, path group). -/
def findMediaGo (pat : List Char) : Nat → List Char → List (List Char × List Char × List Char)
  | _, [] => []
  | 0, _ => []
  | fuel + 1, c :: tl =>
    if pat.isPrefixOf (c :: tl) then
      match tailMatch ((c :: tl).drop pat.length) with
      | some r =>
        ((c :: tl).take (pat.length + r.2.2), r.1, r.2.1)
          :: findMediaGo pat fuel ((c :: tl).drop (pat.length + r.2.2))
      | none => findMediaGo pat fuel tl
    else findMediaGo pat fuel tl

def findMedia (pat l : List Char) : List (List Char × List Char × List Char) :=
  findMediaGo pat (l.length + 1) l

/-- Python `str.replace(pat, "")`: delete every (leftmost, non-overlapping)
occurrence of `pat`. -/
def removeAllGo (pat : List Char) : Nat → List Char → List Char
  | _, [] => []
  | 0, l => l
  | fuel + 1, c :: tl =>
    if pat.isPrefixOf (c :: tl) then removeAllGo pat fuel ((c :: tl).drop pat.length)
    else c :: removeAllGo pat fuel tl

def removeAll (pat l : List Char) : List Char := removeAllGo pat (l.length + 1) l

/-- `re.search(r"width\s*=\s*([0-9]+%|[0-9]+px)", opt)` value part: a maximal
digit run followed by `%`, else followed by `px` (shorter digit runs cannot
be followed by the unit, so only the maximal run can match). -/
def numUnit (v : List Char) : Option (List Char) :=
  let d := v.takeWhile Char.isDigit
  if d = [] then none
  else
    match v.drop d.length with
    | '%' :: _ => some (d ++ ['%'])
    | 'p' :: 'x' :: _ => some (d ++ ['p', 'x'])
    | _ => none

/-- `re.search(r"scale\s*=\s*([0-9.]+)", opt)` value part: a maximal
non-empty run of digits and dots. -/
def numScale (v : List Char) : Option (List Char) :=
  let d := v.takeWhile (fun c => c.isDigit || c == '.')
  if d = [] then none else some d

/-- After the key: `\s*`, a literal `=`, `\s*`, then the value matcher `f`
(the whitespace runs are maximal since whitespace can start neither `=` nor
a digit). -/
def attrValue (f : List Char → Option (List Char)) (rest : List Char) : Option (List Char) :=
  match rest.dropWhile isSpaceC with
  | '=' :: u2 => f (u2.dropWhile isSpaceC)
  | _ => none

/-- `re.search` for `key\s*=\s*<value>` anywhere in the attribute string:
try every position left to right. -/
def searchAttr (key : List Char) (f : List Char → Option (List Char)) :
    List Char → Option (List Char)
  | [] => none
  | c :: tl =>
    match (if key.isPrefixOf (c :: tl) then attrValue f ((c :: tl).drop key.length) else none) with
    | some v => some v
    | none => searchAttr key f tl

/-- `parse_media` (lines 144-157): normalize a media directive match into an
element.  The path is stripped; when the options group is empty (Python
`if opt:` is false) all three size attributes stay unset. -/
def parse_media (kind opt path : List Char) : Element :=
  Element.media kind (pstrip path)
    (if opt = [] then none else searchAttr "width".data numUnit opt)
    (if opt = [] then none else searchAttr "height".data numUnit opt)
    (if opt = [] then none else searchAttr "scale".data numScale opt)

/-- One iteration of the `for typ in ("image", "video")` loop (lines
159-162): collect all matches of the directive for `kind` on the current
text, turn each into an element (in match order), and delete every
occurrence of each matched text from the running text (Python rebinds
`part = part.replace(m.group(0), "")`; the match list was computed on the
text as it was when the loop was entered). -/
def mediaStep (kind part : List Char) : List Element × List Char :=
  let ms := findMedia ('\\' :: kind) part
  (ms.map (fun m => parse_media kind m.2.1 m.2.2),
   ms.foldl (fun acc m => removeAll m.1 acc) part)

/-- Processing of one piece of the page-break split (lines 136-164):
whitespace-only pieces are dropped, separator pieces become a page break,
otherwise image then video directives are extracted and any non-whitespace
remainder becomes a `latex` element. -/
def processPart (part : List Char) : List Element :=
  if pstrip part = [] then []
  else if pstrip part = newpageLit ∨ pstrip part = breakpageLit then [Element.pagebreak]
  else
    let s1 := mediaStep "image".data part
    let s2 := mediaStep "video".data s1.2
    s1.1 ++ s2.1 ++ (if pstrip s2.2 = [] then [] else [Element.latex (pstrip s2.2)])

/-- Second-pass expansion of one first-pass element (lines 120-164): manim
blocks pass through; a latex block first has its inline `\manim{...}`
directives extracted (the replacement callback appends them to `expanded`
before anything else of this block), then the remaining text is split on
page breaks and each piece processed. -/
def expandBlock : RawEl → List Element
  | RawEl.manim c => [Element.manim c]
  | RawEl.latex t =>
    let p := manimSub t
    p.2.map Element.manim ++ (pbSplit p.1).foldr (fun part acc => processPart part ++ acc) []

/-- Concatenation of the per-block expansions, in block order (the Python
code appends to one `expanded` list while iterating `elements`). -/
def expandAll : List RawEl → List Element
  | [] => []
  | r :: tl => expandBlock r ++ expandAll tl

/-- A layout-regex alternative matches at this position (regex of line 105,
tried at a line start because of `(?m)^`):
`%%\s*twocolumn` (the whitespace run is maximal and may span newlines), or
the literal `\twocolumn`, or `\document[.*twocolumn.*]` where both `.*`
stay within the current line. -/
def layoutHit (l : List Char) : Bool :=
  (match l with
   | '%' :: '%' :: rest => twocolKey.isPrefixOf (rest.dropWhile isSpaceC)
   | _ => false)
  || twocolumnCmd.isPrefixOf l
  || (if docOptLit.isPrefixOf l then
        let line := (l.drop docOptLit.length).takeWhile (fun c => !(c == '\n'))
        match splitFirst twocolKey line with
        | some r => r.2.contains ']'
        | none => false
      else false)

/-- Scan the positions right after each newline for a layout hit. -/
def mlScan : List Char → Bool
  | [] => false
  | c :: tl => ((c == '\n') && layoutHit tl) || mlScan tl

/-- `re.search` with `(?m)^...`: a hit at the start of the text or right
after any newline. -/
def layoutSearch (l : List Char) : Bool := layoutHit l || mlScan l

/-- Layout detection (line 105). -/
def detect_layout (tex : List Char) : String :=
  if layoutSearch tex then "two-column" else "single-column"

/-- `parse_latex` (lines 103-165): the ordered element list and the layout. -/
def parse_latex (tex : List Char) : List Element × String :=
  (expandAll (firstPass tex), detect_layout tex)

/-! ## The dispatch loop of `main` (lines 202-263) -/

/-- The artifact entries appended to `sequence` by the loop of lines
217-255: one dict per element. -/
inductive Artifact where
  | pagebreak
  | video (file : List Char)
  | media (kind : List Char) (file : List Char)
      (width : Option (List Char)) (height : Option (List Char))
      (scale : Option (List Char))
  | latexSvg (file : List Char)
  | error (text : List Char)
deriving DecidableEq, Repr

/-- The environment of a run: whether `run_manim` produced an existing video
for the element at a given index with the given code, whether
`render_latex_to_svg` ran without a `CalledProcessError`, and which source
paths exist on disk.  These are the only ways the external world enters the
loop. -/
structure Oracle where
  manimOk : Nat → List Char → Bool
  latexOk : Nat → List Char → Bool
  fileExists : List Char → Bool

/-- `Path(file).name`: the component after the final `/` (the paths the
pipeline handles carry no trailing separator). -/
def pathName (f : List Char) : List Char :=
  (f.reverse.takeWhile (fun c => !(c == '/'))).reverse

/-- One iteration of the dispatch loop (lines 217-255) for the element at
index `i`: every branch appends exactly one sequence entry. -/
def dispatchStep (ora : Oracle) (i : Nat) : Element → Artifact
  | Element.pagebreak => Artifact.pagebreak
  | Element.manim code =>
    if ora.manimOk i code then
      Artifact.video ("videos/scene_".data ++ (Nat.repr i).data ++ ".mp4".data)
    else
      Artifact.error ("Manim render failed snippet ".data ++ (Nat.repr i).data)
  | Element.media kind file w h s =>
    Artifact.media kind (kind ++ 's' :: '/' :: pathName file) w h s
  | Element.latex t =>
    if ora.latexOk i t then
      Artifact.latexSvg ("latex/block_".data ++ (Nat.repr i).data ++ ".svg".data)
    else
      Artifact.error ("LaTeX render failed for block ".data ++ (Nat.repr i).data)

/-- The dispatch loop from start index `i` (the code enumerates the full
element list from 0). -/
def dispatchFrom (ora : Oracle) : Nat → List Element → List Artifact
  | _, [] => []
  | i, el :: tl => dispatchStep ora i el :: dispatchFrom ora (i + 1) tl

/-- The manifest `sequence` list (line 257). -/
def buildSequence (ora : Oracle) (els : List Element) : List Artifact :=
  dispatchFrom ora 0 els

/-- The `shutil.copy` calls of line 240 for referenced media assets, in
execution order: (destination, source), performed only when the source
exists on disk. -/
def mediaCopies (ora : Oracle) : List Element → List (List Char × List Char)
  | [] => []
  | Element.media kind file _ _ _ :: tl =>
    (if ora.fileExists file then [(kind ++ 's' :: '/' :: pathName file, file)] else [])
      ++ mediaCopies ora tl
  | _ :: tl => mediaCopies ora tl

/-- Content of a bundle path after all copies ran: the last write wins
(each `shutil.copy` overwrites an existing destination). -/
def bundleLookup (log : List (List Char × List Char)) (d : List Char) : Option (List Char) :=
  log.foldl (fun acc e => if e.1 = d then some e.2 else acc) none

/-! ## CLI handling (lines 202-207) -/

/-- Outcome of the argument handling: the usage message (printed, then
`return`), an uncaught Python exception, or the two selected paths. -/
inductive CliResult where
  | usage
  | exn (kind : String)
  | proceed (infile outfile : String)
deriving DecidableEq, Repr

/-- `list.index("-o")`: position of the first `"-o"`. -/
def argIndex : List String → Option Nat
  | [] => none
  | a :: tl => if a = "-o" then some 0 else (argIndex tl).map (· + 1)

/-- Lines 202-207: with fewer than 3 entries in `sys.argv` the usage message
is printed and `main` returns; otherwise `sys.argv.index("-o")` raises
`ValueError` when `-o` is absent, `sys.argv[i+1]` raises `IndexError` when
`-o` is last, and otherwise the input path `sys.argv[1]` and the output path
are selected.  Only `proceed` goes on to build the archive. -/
def mainCli (argv : List String) : CliResult :=
  if argv.length < 3 then CliResult.usage
  else
    match argIndex argv with
    | none => CliResult.exn "ValueError"
    | some i =>
      match argv.get? (i + 1), argv.get? 1 with
      | some outf, some inf => CliResult.proceed inf outf
      | _, _ => CliResult.exn "IndexError"

/-- Whether an invocation reaches the code that writes the archive. -/
def producesArchive : CliResult → Bool
  | CliResult.proceed _ _ => true
  | _ => false

/-- The element at index `i` invokes an external converter and that
converter fails (non-zero exit): a manim element whose render fails, or a
latex element whose typesetting raises `CalledProcessError`. -/
def convFails (ora : Oracle) (i : Nat) : Element → Bool
  | Element.manim c => !(ora.manimOk i c)
  | Element.latex t => !(ora.latexOk i t)
  | _ => false

/-- A run environment where every external call succeeds and every file
exists. -/
def oraAll : Oracle := ⟨fun _ _ => true, fun _ _ => true, fun _ => true⟩

/-- A run environment where the manim render for element index 1 fails and
everything else succeeds. -/
def oraFailAt1 : Oracle := ⟨fun i _ => decide (i ≠ 1), fun _ _ => true, fun _ => true⟩

/-- A run environment where no referenced file exists on disk. -/
def oraNoFiles : Oracle := ⟨fun _ _ => true, fun _ _ => true, fun _ => false⟩

/-- A run environment where exactly the file `foo.png` exists on disk. -/
def oraC8 : Oracle := ⟨fun _ _ => true, fun _ _ => true, fun f => f == "foo.png".data⟩

/-! ## Helper lemmas about stripping -/

theorem pstrip_eq_rdropWhile (l : List Char) :
    pstrip l = List.rdropWhile isSpaceC (l.dropWhile isSpaceC) := rfl

theorem pstrip_idem (l : List Char) : pstrip (pstrip l) = pstrip l := by
  have hu : (l.dropWhile isSpaceC).dropWhile isSpaceC = l.dropWhile isSpaceC :=
    List.dropWhile_idempotent _ _
  have hdrop :
      (List.rdropWhile isSpaceC (l.dropWhile isSpaceC)).dropWhile isSpaceC
        = List.rdropWhile isSpaceC (l.dropWhile isSpaceC) := by
    rw [List.dropWhile_eq_self_iff]
    intro hl
    have hpre : List.rdropWhile isSpaceC (l.dropWhile isSpaceC) <+: l.dropWhile isSpaceC :=
      List.rdropWhile_prefix _ _
    have hlen : 0 < (l.dropWhile isSpaceC).length :=
      Nat.lt_of_lt_of_le hl hpre.length_le
    have hget := hpre.getElem hl
    rw [List.get_eq_getElem, hget]
    have := (List.dropWhile_eq_self_iff).mp hu hlen
    rw [List.get_eq_getElem] at this
    exact this
  rw [pstrip_eq_rdropWhile, pstrip_eq_rdropWhile, hdrop, List.rdropWhile_idempotent]

theorem pstrip_prefix_dropWhile (l : List Char) :
    pstrip l <+: l.dropWhile isSpaceC := List.rdropWhile_prefix _ _

theorem mem_pstrip {c : Char} {l : List Char} (h : c ∈ pstrip l) : c ∈ l := by
  have h1 : c ∈ l.dropWhile isSpaceC := (pstrip_prefix_dropWhile l).subset h
  exact (List.dropWhile_suffix isSpaceC).subset h1

/-- The stripped text sits inside the original text. -/
theorem pstrip_infix (l : List Char) : ∃ x y, l = x ++ pstrip l ++ y := by
  obtain ⟨y, hy⟩ := pstrip_prefix_dropWhile l
  refine ⟨l.takeWhile isSpaceC, y, ?_⟩
  rw [List.append_assoc, hy, List.takeWhile_append_dropWhile]

/-! ## Helper lemmas about literal search -/

theorem isPrefixOf_append_self (p r : List Char) : p.isPrefixOf (p ++ r) = true :=
  List.isPrefixOf_iff_prefix.mpr (List.prefix_append p r)

theorem eq_append_of_isPrefixOf {p l : List Char} (h : p.isPrefixOf l = true) :
    l = p ++ l.drop p.length := by
  obtain ⟨t, rfl⟩ := List.isPrefixOf_iff_prefix.mp h
  rw [List.drop_left]

theorem mem_of_isPrefixOf {p l : List Char} {c : Char}
    (h : p.isPrefixOf l = true) (hc : c ∈ p) : c ∈ l := by
  rw [eq_append_of_isPrefixOf h]
  exact List.mem_append_left _ hc

theorem isPrefixOf_cons_false {e c : Char} {p tl : List Char} (h : e ≠ c) :
    (e :: p).isPrefixOf (c :: tl) = false := by
  simp [List.isPrefixOf, h]

theorem splitFirst_sound {p l a b : List Char} (h : splitFirst p l = some (a, b)) :
    l = a ++ p ++ b := by
  induction l generalizing a b with
  | nil =>
    unfold splitFirst at h
    split at h
    · rename_i hp
      cases h
      simp [hp]
    · cases h
  | cons c tl ih =>
    unfold splitFirst at h
    split at h
    · rename_i hp
      cases h
      have := eq_append_of_isPrefixOf hp
      simpa using this
    · obtain ⟨r, hr, heq⟩ := Option.map_eq_some'.mp h
      obtain ⟨r1, r2⟩ := r
      cases heq
      have := ih hr
      simp [this]

theorem splitFirst_none_of_mem {p l : List Char} {c : Char}
    (hc : c ∈ p) (hl : c ∉ l) : splitFirst p l = none := by
  induction l with
  | nil =>
    unfold splitFirst
    split
    · rename_i hp
      subst hp
      cases hc
    · rfl
  | cons d tl ih =>
    unfold splitFirst
    split
    · rename_i hp
      exact absurd (mem_of_isPrefixOf hp hc) hl
    · rw [ih (fun h => hl (List.mem_cons_of_mem d h))]
      rfl

theorem splitFirst_self_append {p : List Char} (r : List Char) (hp : p ≠ []) :
    splitFirst p (p ++ r) = some ([], r) := by
  obtain ⟨e, p', rfl⟩ := List.exists_cons_of_ne_nil hp
  show splitFirst (e :: p') (e :: (p' ++ r)) = some ([], r)
  unfold splitFirst
  rw [if_pos]
  · rw [show e :: (p' ++ r) = (e :: p') ++ r from rfl, List.drop_left]
  · exact isPrefixOf_append_self (e :: p') r

/-- Scanning past a chunk that cannot contain the head of the pattern. -/
theorem splitFirst_append_skip {e : Char} {p' x : List Char} (rest : List Char)
    (hx : e ∉ x) :
    splitFirst (e :: p') (x ++ rest)
      = (splitFirst (e :: p') rest).map (fun r => (x ++ r.1, r.2)) := by
  induction x with
  | nil =>
    cases h : splitFirst (e :: p') rest <;> simp [h]
  | cons c x' ih =>
    have hec : e ≠ c := fun h => hx (h ▸ List.mem_cons_self c x')
    have hx' : e ∉ x' := fun h => hx (List.mem_cons_of_mem c h)
    show splitFirst (e :: p') (c :: (x' ++ rest)) = _
    conv_lhs => unfold splitFirst
    rw [if_neg (by simp [isPrefixOf_cons_false hec])]
    rw [ih hx']
    cases h : splitFirst (e :: p') rest <;> simp [h]

theorem splitFirst_isSome_append (u p v : List Char) :
    (splitFirst p (u ++ (p ++ v))).isSome = true := by
  induction u with
  | nil =>
    cases hp : p with
    | nil =>
      cases v <;> simp [splitFirst]
    | cons e p' =>
      rw [List.nil_append, splitFirst_self_append v (by simp [hp])]
      rfl
  | cons c u' ih =>
    show (splitFirst p (c :: (u' ++ (p ++ v)))).isSome = true
    unfold splitFirst
    split
    · rfl
    · cases h : splitFirst p (u' ++ (p ++ v)) with
      | none => rw [h] at ih; cases ih
      | some r => simp [h]

theorem containsSub_of_decomp {p l x y : List Char} (h : l = x ++ p ++ y) :
    containsSub p l = true := by
  subst h
  rw [containsSub, List.append_assoc]
  exact splitFirst_isSome_append x p y

theorem splitFirst2_none_of_mem {p q l : List Char} {c d : Char}
    (hc : c ∈ p) (hd : d ∈ q) (hcl : c ∉ l) (hdl : d ∉ l) :
    splitFirst2 p q l = none := by
  induction l with
  | nil => rfl
  | cons a tl ih =>
    unfold splitFirst2
    rw [if_neg, if_neg]
    · rw [ih (fun h => hcl (List.mem_cons_of_mem a h))
          (fun h => hdl (List.mem_cons_of_mem a h))]
      rfl
    · intro h
      exact hdl (mem_of_isPrefixOf h hd)
    · intro h
      exact hcl (mem_of_isPrefixOf h hc)

theorem of_containsSub_false {p l : List Char} (h : containsSub p l = false) :
    splitFirst p l = none := by
  unfold containsSub at h
  cases hs : splitFirst p l with
  | none => rfl
  | some r => rw [hs] at h; cases h

theorem splitFirst2_none_of_none {p q l : List Char}
    (h1 : splitFirst p l = none) (h2 : splitFirst q l = none) :
    splitFirst2 p q l = none := by
  induction l with
  | nil => rfl
  | cons c tl ih =>
    unfold splitFirst at h1 h2
    unfold splitFirst2
    split at h1
    · cases h1
    · split at h2
      · cases h2
      · rename_i hp hq
        rw [if_neg hp, if_neg hq,
          ih (Option.map_eq_none'.mp h1) (Option.map_eq_none'.mp h2)]
        rfl

/-! ## Lemmas about the inline-manim scan -/

theorem manimInlineLit_eq : manimInlineLit = '\\' :: "manim\x7b".data := rfl

theorem splitManim_none_of_no_bs {l : List Char} (h : '\\' ∉ l) :
    splitManim l = none := by
  induction l with
  | nil => rfl
  | cons c tl ih =>
    have hc : '\\' ≠ c := fun he => h (he ▸ List.mem_cons_self c tl)
    have htl : '\\' ∉ tl := fun he => h (List.mem_cons_of_mem c he)
    unfold splitManim
    rw [if_neg (by rw [manimInlineLit_eq, isPrefixOf_cons_false hc]; exact fun hh => nomatch hh)]
    rw [ih htl]
    rfl

theorem splitManim_none_of_no_rb {l : List Char} (h : '\x7d' ∉ l) :
    splitManim l = none := by
  induction l with
  | nil => rfl
  | cons c tl ih =>
    have htl : '\x7d' ∉ tl := fun he => h (List.mem_cons_of_mem c he)
    unfold splitManim
    by_cases hp : manimInlineLit.isPrefixOf (c :: tl) = true
    · rw [if_pos hp]
      dsimp only
      split
      · rename_i tl2 heq
        exfalso
        have h1 := List.mem_cons_self '\x7d' tl2
        rw [← heq] at h1
        exact h (List.drop_subset _ _ (List.drop_subset _ _ h1))
      · rw [ih htl]
        rfl
    · rw [if_neg hp, ih htl]
      rfl

theorem manimSub_of_none {l : List Char} (h : splitManim l = none) :
    manimSub l = (l, []) := by
  simp [manimSub, manimSubGo, h]

theorem manimSub_no_bs {l : List Char} (h : '\\' ∉ l) : manimSub l = (l, []) :=
  manimSub_of_none (splitManim_none_of_no_bs h)

theorem manimSub_no_rb {l : List Char} (h : '\x7d' ∉ l) : manimSub l = (l, []) :=
  manimSub_of_none (splitManim_none_of_no_rb h)

/-! ## Lemmas about the page-break split -/

theorem pbSplit_of_none {l : List Char}
    (h : splitFirst2 newpageLit breakpageLit l = none) : pbSplit l = [l] := by
  simp [pbSplit, pbSplitGo, h]

theorem pbSplit_no_bs {l : List Char} (h : '\\' ∉ l) : pbSplit l = [l] :=
  pbSplit_of_none (splitFirst2_none_of_mem (by decide) (by decide) h h)

theorem pbSplit_of_containsSub_false {l : List Char}
    (hn : containsSub newpageLit l = false) (hb : containsSub breakpageLit l = false) :
    pbSplit l = [l] :=
  pbSplit_of_none (splitFirst2_none_of_none (of_containsSub_false hn) (of_containsSub_false hb))

/-! ## Lemmas about the media-directive scan -/

theorem braceArg_some_mem {u : List Char} {r : List Char × Nat}
    (h : braceArg u = some r) : '\x7d' ∈ u := by
  unfold braceArg at h
  split at h
  · rename_i v
    dsimp only at h
    split at h
    · cases h
    · split at h
      · rename_i hhead
        have h1 : '\x7d' ∈ v.drop (v.takeWhile (fun x => !(x == '\x7d'))).length := by
          cases hvd : v.drop (v.takeWhile (fun x => !(x == '\x7d'))).length with
          | nil => rw [hvd] at hhead; cases hhead
          | cons a w =>
            rw [hvd] at hhead
            have ha : a = '\x7d' := by simpa [List.head?] using hhead
            rw [ha]
            exact List.mem_cons_self _ _
        exact List.mem_cons_of_mem _ (List.drop_subset _ _ h1)
      · cases h
  · cases h

theorem afterOpt_some_mem {u : List Char} {r : List Char × Nat}
    (h : afterOpt u = some r) : '\x7d' ∈ u := by
  unfold afterOpt at h
  split at h
  · rename_i v
    obtain ⟨r1, hr1, _⟩ := Option.map_eq_some'.mp h
    exact List.mem_cons_of_mem _ (braceArg_some_mem hr1)
  · exact braceArg_some_mem h

theorem tailMatch_some_mem {s : List Char} {r : List Char × List Char × Nat}
    (h : tailMatch s = some r) : '\x7d' ∈ s := by
  simp only [tailMatch] at h
  obtain ⟨k, _, hsome⟩ := List.exists_of_findSome?_eq_some h
  obtain ⟨pn, hpn, _⟩ := Option.map_eq_some'.mp hsome
  have h1 := afterOpt_some_mem hpn
  have h2 := List.drop_subset _ _ h1
  split at h2
  · exact List.drop_subset _ _ h2
  · exact h2

theorem findMediaGo_nil_of_no_rb {pat : List Char} :
    ∀ (fuel : Nat) (l : List Char), '\x7d' ∉ l → findMediaGo pat fuel l = [] := by
  intro fuel
  induction fuel with
  | zero => intro l _; cases l <;> rfl
  | succ f ih =>
    intro l h
    cases l with
    | nil => rfl
    | cons c tl =>
      have htl : '\x7d' ∉ tl := fun he => h (List.mem_cons_of_mem c he)
      unfold findMediaGo
      by_cases hp : pat.isPrefixOf (c :: tl) = true
      · rw [if_pos hp]
        cases hm : tailMatch ((c :: tl).drop pat.length) with
        | none => exact ih tl htl
        | some r =>
          exact absurd (List.drop_subset _ _ (tailMatch_some_mem hm)) h
      · rw [if_neg hp]
        exact ih tl htl

theorem findMediaGo_nil_of_no_bs {k : List Char} :
    ∀ (fuel : Nat) (l : List Char), '\\' ∉ l → findMediaGo ('\\' :: k) fuel l = [] := by
  intro fuel
  induction fuel with
  | zero => intro l _; cases l <;> rfl
  | succ f ih =>
    intro l h
    cases l with
    | nil => rfl
    | cons c tl =>
      have hc : '\\' ≠ c := fun he => h (he ▸ List.mem_cons_self c tl)
      have htl : '\\' ∉ tl := fun he => h (List.mem_cons_of_mem c he)
      unfold findMediaGo
      rw [if_neg (by rw [isPrefixOf_cons_false hc]; exact fun hh => nomatch hh)]
      exact ih tl htl

theorem mediaStep_of_nil {kind part : List Char}
    (h : findMedia ('\\' :: kind) part = []) : mediaStep kind part = ([], part) := by
  simp [mediaStep, h]

theorem mediaStep_no_bs {kind part : List Char} (h : '\\' ∉ part) :
    mediaStep kind part = ([], part) :=
  mediaStep_of_nil (findMediaGo_nil_of_no_bs _ _ h)

theorem mediaStep_no_rb {kind part : List Char} (h : '\x7d' ∉ part) :
    mediaStep kind part = ([], part) :=
  mediaStep_of_nil (findMediaGo_nil_of_no_rb _ _ h)

/-! ## Lemmas about part processing and block expansion -/

theorem pstrip_ne_of_no_bs {part lit : List Char} (hbs : '\\' ∉ part)
    (hlit : '\\' ∈ lit) : pstrip part ≠ lit := by
  intro h
  exact hbs (mem_pstrip (h ▸ hlit))

theorem processPart_plain {part : List Char}
    (hn1 : pstrip part ≠ newpageLit) (hn2 : pstrip part ≠ breakpageLit)
    (hi : mediaStep "image".data part = ([], part))
    (hv : mediaStep "video".data part = ([], part))
    (hne : pstrip part ≠ []) :
    processPart part = [Element.latex (pstrip part)] := by
  unfold processPart
  rw [if_neg hne, if_neg (by rintro (h | h); exact hn1 h; exact hn2 h)]
  rw [hi]
  simp only
  rw [hv]
  simp [hne]

theorem processPart_no_bs {part : List Char} (hbs : '\\' ∉ part)
    (hne : pstrip part ≠ []) :
    processPart part = [Element.latex (pstrip part)] :=
  processPart_plain
    (pstrip_ne_of_no_bs hbs (by decide))
    (pstrip_ne_of_no_bs hbs (by decide))
    (mediaStep_no_bs hbs) (mediaStep_no_bs hbs) hne

theorem pstrip_ne_of_containsSub_false {part lit : List Char}
    (h : containsSub lit part = false) : pstrip part ≠ lit := by
  intro heq
  obtain ⟨x, y, hxy⟩ := pstrip_infix part
  rw [heq] at hxy
  rw [containsSub_of_decomp hxy] at h
  cases h

theorem processPart_no_rb {part : List Char} (hrb : '\x7d' ∉ part)
    (hn : containsSub newpageLit part = false)
    (hb : containsSub breakpageLit part = false)
    (hne : pstrip part ≠ []) :
    processPart part = [Element.latex (pstrip part)] :=
  processPart_plain
    (pstrip_ne_of_containsSub_false hn)
    (pstrip_ne_of_containsSub_false hb)
    (mediaStep_no_rb hrb) (mediaStep_no_rb hrb) hne

theorem expandBlock_latex_eq {t t1 : List Char} {codes : List (List Char)}
    (hms : manimSub t = (t1, codes)) :
    expandBlock (RawEl.latex t)
      = codes.map Element.manim
        ++ (pbSplit t1).foldr (fun part acc => processPart part ++ acc) [] := by
  simp only [expandBlock]
  rw [hms]

theorem expandBlock_no_bs {t : List Char} (hbs : '\\' ∉ t) (hne : pstrip t ≠ []) :
    expandBlock (RawEl.latex t) = [Element.latex (pstrip t)] := by
  rw [expandBlock_latex_eq (manimSub_no_bs hbs), pbSplit_no_bs hbs]
  simp [processPart_no_bs hbs hne]

theorem expandBlock_no_rb {t : List Char} (hrb : '\x7d' ∉ t)
    (hn : containsSub newpageLit t = false)
    (hb : containsSub breakpageLit t = false)
    (hne : pstrip t ≠ []) :
    expandBlock (RawEl.latex t) = [Element.latex (pstrip t)] := by
  rw [expandBlock_latex_eq (manimSub_no_rb hrb),
    pbSplit_of_containsSub_false hn hb]
  simp [processPart_no_rb hrb hn hb hne]

theorem firstPassGo_of_none {fuel : Nat} {l : List Char}
    (h : splitFirst beginManimLit l = none) :
    firstPassGo fuel l = if pstrip l = [] then [] else [RawEl.latex (pstrip l)] := by
  cases fuel with
  | zero => simp [firstPassGo]
  | succ f => simp [firstPassGo, h]

theorem containsSub_pstrip_false {p l : List Char} (h : containsSub p l = false) :
    containsSub p (pstrip l) = false := by
  cases hcs : containsSub p (pstrip l) with
  | false => rfl
  | true =>
    exfalso
    obtain ⟨r, hr⟩ := Option.isSome_iff_exists.mp hcs
    obtain ⟨r1, r2⟩ := r
    have hdec := splitFirst_sound hr
    obtain ⟨x, y, hxy⟩ := pstrip_infix l
    rw [hdec] at hxy
    have : l = (x ++ r1) ++ p ++ (r2 ++ y) := by simp [hxy]
    rw [containsSub_of_decomp this] at h
    cases h

theorem expandAll_cons (r : RawEl) (tl : List RawEl) :
    expandAll (r :: tl) = expandBlock r ++ expandAll tl := rfl

/-- Finding the pattern right after a chunk free of its head character. -/
theorem splitFirst_skip_self {e : Char} {p' x : List Char} (v : List Char) (hx : e ∉ x) :
    splitFirst (e :: p') (x ++ ((e :: p') ++ v)) = some (x, v) := by
  rw [splitFirst_append_skip ((e :: p') ++ v) hx,
    splitFirst_self_append v (by simp)]
  simp

theorem splitFirst_bm_seam (x v : List Char) (hx : '\\' ∉ x) :
    splitFirst beginManimLit (x ++ (beginManimLit ++ v)) = some (x, v) :=
  splitFirst_skip_self v hx

theorem splitFirst_em_seam (x v : List Char) (hx : '\\' ∉ x) :
    splitFirst endManimLit (x ++ (endManimLit ++ v)) = some (x, v) :=
  splitFirst_skip_self v hx

/-! ## Lemmas about layout detection -/

theorem layoutHit_cmd_append (b : List Char) :
    layoutHit (twocolumnCmd ++ b) = true := by
  unfold layoutHit
  rw [isPrefixOf_append_self]
  simp

theorem mlScan_append_newline {rest : List Char} (a : List Char)
    (h : layoutHit rest = true) : mlScan (a ++ '\n' :: rest) = true := by
  induction a with
  | nil => simp [mlScan, h]
  | cons c tl ih => simp [mlScan, ih]

theorem detect_layout_of_hit {tex : List Char} (h : layoutSearch tex = true) :
    detect_layout tex = "two-column" := by
  simp [detect_layout, h]

theorem dropWhile_append_all {p : Char → Bool} {w : List Char} (x : List Char)
    (hw : ∀ c ∈ w, p c = true) :
    (w ++ x).dropWhile p = x.dropWhile p := by
  induction w with
  | nil => rfl
  | cons c tl ih =>
    show (c :: (tl ++ x)).dropWhile p = _
    rw [List.dropWhile_cons, if_pos (hw c (List.mem_cons_self c tl))]
    exact ih (fun d hd => hw d (List.mem_cons_of_mem c hd))

theorem takeWhile_append_all {p : Char → Bool} {u : List Char} (x : List Char)
    (hu : ∀ c ∈ u, p c = true) :
    (u ++ x).takeWhile p = u ++ x.takeWhile p := by
  induction u with
  | nil => rfl
  | cons c tl ih =>
    show (c :: (tl ++ x)).takeWhile p = _
    rw [List.takeWhile_cons, if_pos (hu c (List.mem_cons_self c tl)),
      ih (fun d hd => hu d (List.mem_cons_of_mem c hd))]
    rfl

/-- On a line starting with `%%` the layout regex reduces to the
`%%\s*twocolumn` alternative (the other two spellings start with a
backslash and cannot match). -/
theorem layoutHit_comment_eq (r : List Char) :
    layoutHit ('%' :: '%' :: r)
      = (twocolKey.isPrefixOf (r.dropWhile isSpaceC) || false || false) := rfl

/-- The `%%\s*twocolumn` spelling matches at this position: `%%`, a run of
whitespace, then `twocolumn`. -/
theorem layoutHit_comment (w b : List Char) (hw : ∀ c ∈ w, isSpaceC c = true) :
    layoutHit ('%' :: '%' :: (w ++ (twocolKey ++ b))) = true := by
  rw [layoutHit_comment_eq, dropWhile_append_all _ hw,
    show twocolKey ++ b = 't' :: ("wocolumn".data ++ b) from rfl,
    List.dropWhile_cons, if_neg (by decide)]
  rw [show ('t' : Char) :: ("wocolumn".data ++ b) = twocolKey ++ b from rfl,
    isPrefixOf_append_self]
  rfl

/-- The `\document[.*twocolumn.*\]` spelling matches at this position:
`\document[`, then on the same line some text, `twocolumn`, more text and
a closing `]`. -/
theorem layoutHit_doc (x y z : List Char)
    (hx1 : '\n' ∉ x) (hx2 : 't' ∉ x) (hy : '\n' ∉ y) :
    layoutHit (docOptLit ++ (x ++ (twocolKey ++ (y ++ ']' :: z)))) = true := by
  have hpx : ∀ c ∈ x, (!(c == '\n')) = true := by
    intro c hcx
    have hne : c ≠ '\n' := fun he => hx1 (he ▸ hcx)
    simp [hne]
  have hpy : ∀ c ∈ y, (!(c == '\n')) = true := by
    intro c hcy
    have hne : c ≠ '\n' := fun he => hy (he ▸ hcy)
    simp [hne]
  have hptk : ∀ c ∈ twocolKey, (!(c == '\n')) = true := by decide
  have hcont : (y ++ ']' :: z.takeWhile (fun c => !(c == '\n'))).contains ']' = true :=
    List.elem_eq_true_of_mem (List.mem_append_right y (List.mem_cons_self ']' _))
  unfold layoutHit
  rw [if_pos (isPrefixOf_append_self docOptLit (x ++ (twocolKey ++ (y ++ ']' :: z))))]
  simp only [List.drop_left]
  rw [takeWhile_append_all _ hpx, takeWhile_append_all _ hptk, takeWhile_append_all _ hpy,
    List.takeWhile_cons, if_pos (by decide),
    show twocolKey = 't' :: "wocolumn".data from rfl, splitFirst_skip_self _ hx2]
  dsimp only
  rw [hcont]
  simp

/-! ## Lemmas about the dispatch loop -/

theorem dispatchFrom_length (ora : Oracle) :
    ∀ (i : Nat) (els : List Element),
      (dispatchFrom ora i els).length = els.length := by
  intro i els
  induction els generalizing i with
  | nil => rfl
  | cons e tl ih => simp [dispatchFrom, ih]

theorem dispatchFrom_get? (ora : Oracle) :
    ∀ (els : List Element) (i j : Nat),
      (dispatchFrom ora i els).get? j
        = (els.get? j).map (fun e => dispatchStep ora (i + j) e) := by
  intro els
  induction els with
  | nil => intro i j; simp [dispatchFrom]
  | cons e tl ih =>
    intro i j
    cases j with
    | zero => simp [dispatchFrom]
    | succ j2 =>
      have hidx : i + 1 + j2 = i + (j2 + 1) := by omega
      show (dispatchStep ora i e :: dispatchFrom ora (i + 1) tl).get? (j2 + 1) = _
      rw [List.get?_cons_succ, ih (i + 1) j2, hidx, List.get?_cons_succ]

theorem buildSequence_length (ora : Oracle) (els : List Element) :
    (buildSequence ora els).length = els.length :=
  dispatchFrom_length ora 0 els

theorem buildSequence_get? (ora : Oracle) (els : List Element) (j : Nat) :
    (buildSequence ora els).get? j
      = (els.get? j).map (fun e => dispatchStep ora j e) := by
  have := dispatchFrom_get? ora els 0 j
  simpa [buildSequence] using this

theorem mediaCopies_fileExists (ora : Oracle) :
    ∀ (els : List Element), ∀ p ∈ mediaCopies ora els, ora.fileExists p.2 = true := by
  intro els
  induction els with
  | nil => intro p hp; cases hp
  | cons e tl ih =>
    intro p hp
    cases e with
    | media kind file w h s =>
      simp only [mediaCopies] at hp
      rcases List.mem_append.mp hp with h1 | h2
      · by_cases hex : ora.fileExists file = true
        · rw [if_pos hex] at h1
          have hpe : p = (kind ++ 's' :: '/' :: pathName file, file) := by
            simpa using h1
          rw [hpe]
          exact hex
        · rw [if_neg hex] at h1
          cases h1
      · exact ih p h2
    | latex t => exact ih p hp
    | manim c => exact ih p hp
    | pagebreak => exact ih p hp

/-! ## Lemmas about CLI handling -/

theorem argIndex_none {argv : List String} (h : "-o" ∉ argv) :
    argIndex argv = none := by
  induction argv with
  | nil => rfl
  | cons a tl ih =>
    unfold argIndex
    rw [if_neg (fun he => h (by rw [← he]; exact List.mem_cons_self a tl)),
      ih (fun he => h (List.mem_cons_of_mem a he))]
    rfl

/-! ## Lemmas for the inline-manim ordering claim -/

theorem processPart_not_manim {part : List Char} {c : List Char} :
    Element.manim c ∉ processPart part := by
  intro he
  by_cases h1 : pstrip part = []
  · simp [processPart, h1] at he
  · by_cases h2 : pstrip part = newpageLit ∨ pstrip part = breakpageLit
    · simp [processPart, h1, h2] at he
    · simp only [processPart, if_neg h1, if_neg h2] at he
      rcases List.mem_append.mp he with hx | hx
      · rcases List.mem_append.mp hx with hy | hy
        · obtain ⟨m, _, hm⟩ := List.mem_map.mp hy
          simp [parse_media] at hm
        · obtain ⟨m, _, hm⟩ := List.mem_map.mp hy
          simp [parse_media] at hm
      · split at hx
        · cases hx
        · simp at hx
  -- the two map cases come from the image pass and the video pass

theorem mem_foldr_parts {e : Element} :
    ∀ (parts : List (List Char)),
      e ∈ parts.foldr (fun part acc => processPart part ++ acc) [] →
      ∃ part ∈ parts, e ∈ processPart part := by
  intro parts
  induction parts with
  | nil => intro h; cases h
  | cons p tl ih =>
    intro h
    rcases List.mem_append.mp h with h1 | h2
    · exact ⟨p, List.mem_cons_self _ _, h1⟩
    · obtain ⟨q, hq, hqe⟩ := ih h2
      exact ⟨q, List.mem_cons_of_mem _ hq, hqe⟩

/-! ## Claim theorems -/

/-- C1: for every source text and run environment, the manifest `sequence`
has exactly one entry per segmented element; the entry at index `j` is
exactly the artifact the dispatch loop produces for the `j`-th element, and
it depends only on the environment's behaviour at index `j`: two
environments agreeing at `j` give the same entry at `j` regardless of
failures at other indices — so a failure at index `i` cannot shift, drop or
alter entries elsewhere. -/
theorem c1_sequence_indexing (ora ora2 : Oracle) (tex : List Char) (j : Nat)
    (hm : ∀ s, ora.manimOk j s = ora2.manimOk j s)
    (hl : ∀ s, ora.latexOk j s = ora2.latexOk j s) :
    (buildSequence ora (parse_latex tex).1).length = (parse_latex tex).1.length
    ∧ (buildSequence ora (parse_latex tex).1).get? j
        = ((parse_latex tex).1.get? j).map (fun e => dispatchStep ora j e)
    ∧ (buildSequence ora (parse_latex tex).1).get? j
        = (buildSequence ora2 (parse_latex tex).1).get? j := by
  refine ⟨buildSequence_length ora _, buildSequence_get? ora _ j, ?_⟩
  rw [buildSequence_get? ora _ j, buildSequence_get? ora2 _ j]
  cases hel : (parse_latex tex).1.get? j with
  | none => rfl
  | some e =>
    simp only [Option.map_some']
    congr 1
    cases e with
    | pagebreak => rfl
    | manim c => simp [dispatchStep, hm c]
    | media k f w h s => rfl
    | latex t => simp [dispatchStep, hl t]

/-- Witness for C1 at a concrete source, index and environment. -/
theorem c1_sequence_indexing_witness :
    (buildSequence oraAll (parse_latex "hi".data).1).length = (parse_latex "hi".data).1.length
    ∧ (buildSequence oraAll (parse_latex "hi".data).1).get? 0
        = ((parse_latex "hi".data).1.get? 0).map (fun e => dispatchStep oraAll 0 e)
    ∧ (buildSequence oraAll (parse_latex "hi".data).1).get? 0
        = (buildSequence oraAll (parse_latex "hi".data).1).get? 0 :=
  c1_sequence_indexing oraAll oraAll "hi".data 0 (fun _ => rfl) (fun _ => rfl)

/-- C2 counterexample: on the source `a \manim{x} b` segmentation emits the
inline animation element first although its directive occurs after the
text `a` (the source starts with `a`, which lands in the second element),
so the element order does not match left-to-right source order; moreover
the 13 input characters leave only 5 characters of element payload, so
input bytes are lost. -/
theorem c2_counterexample :
    (parse_latex "a \\manim\x7bx\x7d b".data).1
        = [Element.manim "x".data, Element.latex "a  b".data]
    ∧ "a \\manim\x7bx\x7d b".data.head? = some 'a' := by
  exact ⟨by decide, by decide⟩

/-- C2 (amended): segmentation preserves left-to-right source order at the
granularity of first-pass regions: a source `a ++ \begin{manim} ++ code ++
\end{manim} ++ b` with backslash-free `a`, `code`, `b` and non-whitespace
`a`, `b` yields exactly text, animation, text in source order, with each
region stripped of surrounding whitespace. -/
theorem c2_first_pass_order (a code b : List Char)
    (ha : '\\' ∉ a) (hc : '\\' ∉ code) (hb : '\\' ∉ b)
    (hna : pstrip a ≠ []) (hnb : pstrip b ≠ []) :
    (parse_latex (a ++ beginManimLit ++ code ++ endManimLit ++ b)).1
      = [Element.latex (pstrip a), Element.manim (pstrip code),
         Element.latex (pstrip b)] := by
  have hassoc : a ++ beginManimLit ++ code ++ endManimLit ++ b
      = a ++ (beginManimLit ++ (code ++ (endManimLit ++ b))) := by
    simp [List.append_assoc]
  have hsb := splitFirst_bm_seam a (code ++ (endManimLit ++ b)) ha
  have hse := splitFirst_em_seam code b hc
  have hfpb : ∀ fuel, firstPassGo fuel b
      = [RawEl.latex (pstrip b)] := by
    intro fuel
    rw [firstPassGo_of_none (@splitFirst_none_of_mem beginManimLit b '\\' (by decide) hb),
      if_neg hnb]
  have hfp : firstPass (a ++ (beginManimLit ++ (code ++ (endManimLit ++ b))))
      = [RawEl.latex (pstrip a), RawEl.manim (pstrip code), RawEl.latex (pstrip b)] := by
    rw [firstPass]
    conv_lhs => rw [firstPassGo]
    simp only [hsb, hse, hfpb]
    rw [if_neg hna]
    rfl
  rw [hassoc]
  simp only [parse_latex]
  rw [hfp]
  simp only [expandAll]
  rw [expandBlock_no_bs (fun h => ha (mem_pstrip h)) (by rw [pstrip_idem]; exact hna),
    expandBlock_no_bs (fun h => hb (mem_pstrip h)) (by rw [pstrip_idem]; exact hnb)]
  simp [expandBlock, pstrip_idem]

/-- Witness for C2 (amended) at a concrete sandwich source. -/
theorem c2_first_pass_order_witness :
    (parse_latex ("Intro".data ++ beginManimLit ++ " circle ".data
        ++ endManimLit ++ "End".data)).1
      = [Element.latex (pstrip "Intro".data), Element.manim (pstrip " circle ".data),
         Element.latex (pstrip "End".data)] :=
  c2_first_pass_order "Intro".data " circle ".data "End".data
    (by decide) (by decide) (by decide) (by decide) (by decide)

/-- C3 counterexample: the marker `\twocolumn` occurs in the source
`text \twocolumn` (at the end of the text, mid-line), yet detection
returns `single-column`, because the layout regex only matches at the
start of a line. -/
theorem c3_counterexample :
    detect_layout "text \\twocolumn".data = "single-column"
    ∧ containsSub twocolumnCmd "text \\twocolumn".data = true := by
  exact ⟨by decide, by decide⟩

/-- C3 (amended): detection returns `two-column` whenever a recognized
marker sits at the start of a line — at the very start of the source or
right after any newline, so a marker line at the start, middle or end of
the source is detected.  This holds for all three recognized spellings:
the literal `\twocolumn`, the comment form `%%` + whitespace +
`twocolumn`, and the document-class option form `\document[` + same-line
text + `twocolumn` + same-line text + `]`.  Detection only ever returns
`two-column` or `single-column`, and it is a pure function of the source,
so running it twice gives the same value. -/
theorem c3_line_start_marker (a b w x y z t : List Char)
    (hw : ∀ c ∈ w, isSpaceC c = true)
    (hx1 : '\n' ∉ x) (hx2 : 't' ∉ x) (hy : '\n' ∉ y) :
    (detect_layout (a ++ '\n' :: (twocolumnCmd ++ b)) = "two-column"
      ∧ detect_layout (twocolumnCmd ++ b) = "two-column")
    ∧ (detect_layout (a ++ '\n' :: ('%' :: '%' :: (w ++ (twocolKey ++ b)))) = "two-column"
      ∧ detect_layout ('%' :: '%' :: (w ++ (twocolKey ++ b))) = "two-column")
    ∧ (detect_layout (a ++ '\n' :: (docOptLit ++ (x ++ (twocolKey ++ (y ++ ']' :: z)))))
          = "two-column"
      ∧ detect_layout (docOptLit ++ (x ++ (twocolKey ++ (y ++ ']' :: z)))) = "two-column")
    ∧ (detect_layout t = "two-column" ∨ detect_layout t = "single-column") := by
  have hstart : ∀ r : List Char, layoutHit r = true → detect_layout r = "two-column" := by
    intro r h
    apply detect_layout_of_hit
    unfold layoutSearch
    rw [h]
    rfl
  have hmid : ∀ r : List Char, layoutHit r = true →
      detect_layout (a ++ '\n' :: r) = "two-column" := by
    intro r h
    apply detect_layout_of_hit
    unfold layoutSearch
    rw [mlScan_append_newline a h]
    simp
  refine ⟨⟨hmid _ (layoutHit_cmd_append b), hstart _ (layoutHit_cmd_append b)⟩,
    ⟨hmid _ (layoutHit_comment w b hw), hstart _ (layoutHit_comment w b hw)⟩,
    ⟨hmid _ (layoutHit_doc x y z hx1 hx2 hy), hstart _ (layoutHit_doc x y z hx1 hx2 hy)⟩, ?_⟩
  by_cases h : layoutSearch t = true
  · exact Or.inl (by simp [detect_layout, h])
  · exact Or.inr (by simp [detect_layout, h])

/-- Witness for C3 (amended): all three marker spellings, each at the
start of the source and on a line in the middle of it. -/
theorem c3_line_start_marker_witness :
    (detect_layout ("head".data ++ '\n' :: (twocolumnCmd ++ " rest".data)) = "two-column"
      ∧ detect_layout (twocolumnCmd ++ " rest".data) = "two-column")
    ∧ (detect_layout ("head".data ++ '\n' :: ('%' :: '%' :: ("  ".data ++ (twocolKey ++ " rest".data))))
          = "two-column"
      ∧ detect_layout ('%' :: '%' :: ("  ".data ++ (twocolKey ++ " rest".data))) = "two-column")
    ∧ (detect_layout ("head".data ++ '\n' :: (docOptLit ++ ("a,".data ++ (twocolKey ++ (",q".data ++ ']' :: "tail".data)))))
          = "two-column"
      ∧ detect_layout (docOptLit ++ ("a,".data ++ (twocolKey ++ (",q".data ++ ']' :: "tail".data))))
          = "two-column")
    ∧ (detect_layout "plain".data = "two-column" ∨ detect_layout "plain".data = "single-column") :=
  c3_line_start_marker "head".data " rest".data "  ".data "a,".data ",q".data "tail".data
    "plain".data (by decide) (by decide) (by decide) (by decide)

/-- C4: a text whose inline directives are all malformed (no closing brace
anywhere, as in `\manim{` or `\image{path`) and which contains no
page-break directive is not consumed by directive extraction: segmentation
returns it unchanged (up to whitespace stripping) as a single literal
text-block element, with no directive element and no error. -/
theorem c4_malformed_literal (t : List Char)
    (hrb : '\x7d' ∉ t)
    (hn : containsSub newpageLit t = false)
    (hb : containsSub breakpageLit t = false)
    (hne : pstrip t ≠ []) :
    (parse_latex t).1 = [Element.latex (pstrip t)] := by
  have hfp : firstPass t = [RawEl.latex (pstrip t)] := by
    rw [firstPass,
      firstPassGo_of_none (@splitFirst_none_of_mem beginManimLit t '\x7d' (by decide) hrb),
      if_neg hne]
  simp only [parse_latex]
  rw [hfp]
  simp only [expandAll]
  rw [expandBlock_no_rb (fun h => hrb (mem_pstrip h))
      (containsSub_pstrip_false hn) (containsSub_pstrip_false hb)
      (by rw [pstrip_idem]; exact hne)]
  simp [pstrip_idem]

/-- Witness for C4: a text containing both malformed forms from the claim
(`\manim{` and `\image{path`, neither ever closed) survives as one literal
text block. -/
theorem c4_malformed_literal_witness :
    (parse_latex "see \\manim\x7b and \\image\x7bpath".data).1
      = [Element.latex (pstrip "see \\manim\x7b and \\image\x7bpath".data)] :=
  c4_malformed_literal "see \\manim\x7b and \\image\x7bpath".data
    (by decide) (by decide) (by decide) (by decide)

/-- C5: when the external converter for the element at index `k` fails (a
manim render or a LaTeX typesetting run exiting non-zero), the dispatch
loop records an `error` artifact at position `k` whose message ends with
the index `k`, does not abort (the sequence still has one entry per
element), and every other index still receives its own artifact. -/
theorem c5_error_isolation (ora : Oracle) (els : List Element) (k : Nat) (e : Element)
    (he : els.get? k = some e) (hf : convFails ora k e = true) :
    (∃ msg, (buildSequence ora els).get? k = some (Artifact.error msg)
        ∧ (Nat.repr k).data <:+ msg)
    ∧ (buildSequence ora els).length = els.length
    ∧ ∀ j, j ≠ k → (buildSequence ora els).get? j
        = (els.get? j).map (fun x => dispatchStep ora j x) := by
  refine ⟨?_, buildSequence_length ora els, fun j _ => buildSequence_get? ora els j⟩
  rw [buildSequence_get? ora els k, he, Option.map_some']
  cases e with
  | manim c =>
    have hmo : ora.manimOk k c = false := by simpa [convFails] using hf
    exact ⟨"Manim render failed snippet ".data ++ (Nat.repr k).data,
      by simp [dispatchStep, hmo], List.suffix_append _ _⟩
  | latex t =>
    have hlo : ora.latexOk k t = false := by simpa [convFails] using hf
    exact ⟨"LaTeX render failed for block ".data ++ (Nat.repr k).data,
      by simp [dispatchStep, hlo], List.suffix_append _ _⟩
  | media k2 f w h s => simp [convFails] at hf
  | pagebreak => simp [convFails] at hf

/-- Witness for C5: the manim element at index 1 fails, the entry at index
1 becomes an error naming index 1, and index 0 keeps its artifact. -/
theorem c5_error_isolation_witness :
    (∃ msg, (buildSequence oraFailAt1 [Element.latex "x".data, Element.manim "y".data]).get? 1
        = some (Artifact.error msg) ∧ (Nat.repr 1).data <:+ msg)
    ∧ (buildSequence oraFailAt1 [Element.latex "x".data, Element.manim "y".data]).length
        = [Element.latex "x".data, Element.manim "y".data].length
    ∧ ∀ j, j ≠ 1 →
        (buildSequence oraFailAt1 [Element.latex "x".data, Element.manim "y".data]).get? j
          = ([Element.latex "x".data, Element.manim "y".data].get? j).map
              (fun x => dispatchStep oraFailAt1 j x) :=
  c5_error_isolation oraFailAt1 [Element.latex "x".data, Element.manim "y".data] 1
    (Element.manim "y".data) (by decide) (by decide)

/-- C6: for a media element whose source path does not exist on disk, no
copy is logged for that path, the run continues (one entry per element),
and the artifact at the element's position is still recorded and carries
the kind-namespaced destination `<kind>s/<basename>`. -/
theorem c6_missing_asset (ora : Oracle) (els : List Element) (k : Nat)
    (kind f : List Char) (w h s : Option (List Char))
    (he : els.get? k = some (Element.media kind f w h s))
    (hex : ora.fileExists f = false) :
    (buildSequence ora els).get? k
        = some (Artifact.media kind (kind ++ 's' :: '/' :: pathName f) w h s)
    ∧ (buildSequence ora els).length = els.length
    ∧ ∀ p ∈ mediaCopies ora els, p.2 ≠ f := by
  refine ⟨?_, buildSequence_length ora els, ?_⟩
  · rw [buildSequence_get? ora els k, he, Option.map_some']
    rfl
  · intro p hp hpf
    have hfe := mediaCopies_fileExists ora els p hp
    rw [hpf, hex] at hfe
    cases hfe

/-- Witness for C6 at a concrete missing asset. -/
theorem c6_missing_asset_witness :
    (buildSequence oraNoFiles [Element.media "image".data "a/x.png".data none none none]).get? 0
        = some (Artifact.media "image".data
            ("image".data ++ 's' :: '/' :: pathName "a/x.png".data) none none none)
    ∧ (buildSequence oraNoFiles [Element.media "image".data "a/x.png".data none none none]).length
        = [Element.media "image".data "a/x.png".data none none none].length
    ∧ ∀ p ∈ mediaCopies oraNoFiles [Element.media "image".data "a/x.png".data none none none],
        p.2 ≠ "a/x.png".data :=
  c6_missing_asset oraNoFiles [Element.media "image".data "a/x.png".data none none none] 0
    "image".data "a/x.png".data none none none (by decide) (by decide)

/-- C7 counterexample: the invocation `prog in.tex out.pandora` is missing
the `-o` flag pair, yet the program does not print the usage message: line
207 raises an uncaught ValueError from `sys.argv.index("-o")` (no archive
is produced either way). -/
theorem c7_counterexample :
    mainCli ["prog", "in.tex", "out.pandora"] = CliResult.exn "ValueError"
    ∧ CliResult.exn "ValueError" ≠ CliResult.usage := by
  exact ⟨by decide, by decide⟩

/-- C7 (amended): an invocation with fewer than three argv entries prints
the usage message and exits; an invocation with at least three entries but
no `-o` flag raises an uncaught ValueError instead of printing usage; in
both situations no output archive is produced. -/
theorem c7_cli_handling (argv : List String) :
    (argv.length < 3 → mainCli argv = CliResult.usage)
    ∧ (3 ≤ argv.length → "-o" ∉ argv → mainCli argv = CliResult.exn "ValueError")
    ∧ ((argv.length < 3 ∨ "-o" ∉ argv) → producesArchive (mainCli argv) = false) := by
  refine ⟨?_, ?_, ?_⟩
  · intro h
    simp [mainCli, h]
  · intro h3 ho
    have hlt : ¬ argv.length < 3 := by omega
    simp [mainCli, hlt, argIndex_none ho]
  · rintro (h | h)
    · simp [mainCli, h, producesArchive]
    · by_cases h3 : argv.length < 3
      · simp [mainCli, h3, producesArchive]
      · simp [mainCli, h3, argIndex_none h, producesArchive]

/-- Witness for C7 (amended) at concrete invocations. -/
theorem c7_cli_handling_witness :
    mainCli ["prog"] = CliResult.usage
    ∧ mainCli ["prog", "in.tex", "out.pandora"] = CliResult.exn "ValueError"
    ∧ producesArchive (mainCli ["prog", "in.tex", "out.pandora"]) = false :=
  ⟨(c7_cli_handling ["prog"]).1 (by decide),
   (c7_cli_handling ["prog", "in.tex", "out.pandora"]).2.1 (by decide) (by decide),
   (c7_cli_handling ["prog", "in.tex", "out.pandora"]).2.2 (Or.inr (by decide))⟩

/-- C8: the source `\image[width=50%]{foo.png}` with `foo.png` present on
disk segments into one image media element with width `50%`, height and
scale unset; dispatch records the artifact at `images/foo.png` and copies
the file there. -/
theorem c8_image_directive :
    (parse_latex "\\image[width=50%]\x7bfoo.png\x7d".data).1
        = [Element.media "image".data "foo.png".data (some "50%".data) none none]
    ∧ buildSequence oraC8 (parse_latex "\\image[width=50%]\x7bfoo.png\x7d".data).1
        = [Artifact.media "image".data "images/foo.png".data (some "50%".data) none none]
    ∧ mediaCopies oraC8 (parse_latex "\\image[width=50%]\x7bfoo.png\x7d".data).1
        = [("images/foo.png".data, "foo.png".data)] := by
  exact ⟨by decide, by decide, by decide⟩

/-- C9: expanding a first-pass text block emits all animation elements
extracted from its inline `\manim{...}` directives first, in their order
of occurrence (the order `manimSub` collects them while scanning left to
right), followed by a remainder that contains no animation element — so
every page break, media reference and residual text block of the block
comes after them, wherever the directives occurred in the text. -/
theorem c9_inline_manim_hoist (t : List Char) :
    ∃ rest, expandBlock (RawEl.latex t)
        = ((manimSub t).2).map Element.manim ++ rest
      ∧ ∀ e ∈ rest, ∀ c, e ≠ Element.manim c := by
  refine ⟨(pbSplit (manimSub t).1).foldr (fun part acc => processPart part ++ acc) [],
    expandBlock_latex_eq rfl, ?_⟩
  intro e he c heq
  obtain ⟨part, _, hpe⟩ := mem_foldr_parts _ he
  rw [heq] at hpe
  exact processPart_not_manim hpe

/-- Witness for C9 at a block with one inline directive between text. -/
theorem c9_inline_manim_hoist_witness :
    ∃ rest, expandBlock (RawEl.latex "x \\manim\x7by\x7d z".data)
        = ((manimSub "x \\manim\x7by\x7d z".data).2).map Element.manim ++ rest
      ∧ ∀ e ∈ rest, ∀ c, e ≠ Element.manim c :=
  c9_inline_manim_hoist "x \\manim\x7by\x7d z".data

/-- C10: the destination recorded for a media element depends only on its
kind and the basename of its source path: two media elements of the same
kind whose paths share a basename get artifacts referencing the same
destination file, and when both sources exist the copy of the later
element is the one left at that destination (the later copy overwrites the
earlier one). -/
theorem c10_media_dest_basename (ora : Oracle) (i j : Nat) (kind f1 f2 : List Char)
    (w1 h1 s1 w2 h2 s2 : Option (List Char))
    (hb : pathName f1 = pathName f2)
    (hx1 : ora.fileExists f1 = true) (hx2 : ora.fileExists f2 = true) :
    (∃ d, dispatchStep ora i (Element.media kind f1 w1 h1 s1)
          = Artifact.media kind d w1 h1 s1
        ∧ dispatchStep ora j (Element.media kind f2 w2 h2 s2)
          = Artifact.media kind d w2 h2 s2)
    ∧ bundleLookup
        (mediaCopies ora
          [Element.media kind f1 w1 h1 s1, Element.media kind f2 w2 h2 s2])
        (kind ++ 's' :: '/' :: pathName f2) = some f2 := by
  constructor
  · exact ⟨kind ++ 's' :: '/' :: pathName f2, by simp [dispatchStep, hb], rfl⟩
  · simp [mediaCopies, hx1, hx2, bundleLookup, hb]

/-- Witness for C10: `a/x.png` and `b/x.png` share a basename; both
artifacts point at `images/x.png` and the later copy wins. -/
theorem c10_media_dest_basename_witness :
    (∃ d, dispatchStep oraAll 0 (Element.media "image".data "a/x.png".data none none none)
          = Artifact.media "image".data d none none none
        ∧ dispatchStep oraAll 1 (Element.media "image".data "b/x.png".data none none none)
          = Artifact.media "image".data d none none none)
    ∧ bundleLookup
        (mediaCopies oraAll
          [Element.media "image".data "a/x.png".data none none none,
           Element.media "image".data "b/x.png".data none none none])
        ("image".data ++ 's' :: '/' :: pathName "b/x.png".data) = some "b/x.png".data :=
  c10_media_dest_basename oraAll 0 1 "image".data "a/x.png".data "b/x.png".data
    none none none none none none (by decide) (by decide) (by decide)

end Pandora
